import Mathlib

/-!
Shallow embedding of the Bayesian cryptanalysis pipeline in `src/main.py`
(substitution cipher, priors over plaintexts and keys, posterior, Bayes
decision rules, 0-1 loss), together with proofs of its specification.

Python floats are modelled by `ℚ` (all comparisons and arithmetic in the
source are exact on the inputs considered), lists by `List ℚ`, matrices by
`List (List ℚ)`. List indexing `l[i]` is modelled by `List.getD i 0`;
in-place updates `l[i] += x` by functional updates via `List.set`. The
`ZeroDivisionError` raised by Python on division by zero is modelled by the
`Option` monad: `none` is the raised exception.
-/

namespace Crypto

/-- Read entry `i` of a vector, as Python `l[i]` (claims only concern
in-range indices, where `getD` agrees with Python indexing). -/
def getv (l : List ℚ) (i : Nat) : ℚ := l.getD i 0

/-- Read entry `[i][j]` of a matrix, as Python `m[i][j]`. -/
def getm (p : List (List ℚ)) (i j : Nat) : ℚ := (p.getD i []).getD j 0

/-- Model of Python `l[i] += x` on a list of rationals. -/
def addAt (l : List ℚ) (i : Nat) (x : ℚ) : List ℚ :=
  l.set i (l.getD i 0 + x)

/-- Model of Python `p[i][j] += x` on a matrix of rationals. -/
def addAt2 (p : List (List ℚ)) (i j : Nat) (x : ℚ) : List (List ℚ) :=
  p.set i (addAt (p.getD i []) j x)

/-- Model of Python `p[i][j] = x` on a matrix of rationals. -/
def setAt2 (p : List (List ℚ)) (i j : Nat) (x : ℚ) : List (List ℚ) :=
  p.set i ((p.getD i []).set j x)

/-- `calc_ct_prob` from `src/main.py` (lines 31-51): ciphertext
distribution.  `prob_ct = [0]*n; for msg: for key: prob_ct[table[key][msg]]
+= prob_keys[key] * prob_pt[msg]`. -/
def calc_ct_prob (prob_pt prob_keys : List ℚ) (cipher_table : List (List Nat))
    (n : Nat) : List ℚ :=
  (List.range n).foldl (fun acc msg =>
    (List.range n).foldl (fun acc key =>
      addAt acc ((cipher_table.getD key []).getD msg 0)
        (getv prob_keys key * getv prob_pt msg)) acc)
    (List.replicate n 0)

/-- `calc_pt_ct_prob` from `src/main.py` (lines 54-74): joint
plaintext-ciphertext distribution.  `prob = [[0]*n]*n; for msg: for key:
prob[msg][table[key][msg]] += prob_keys[key] * prob_pt[msg]`. -/
def calc_pt_ct_prob (prob_pt prob_keys : List ℚ) (cipher_table : List (List Nat))
    (n : Nat) : List (List ℚ) :=
  (List.range n).foldl (fun acc msg =>
    (List.range n).foldl (fun acc key =>
      addAt2 acc msg ((cipher_table.getD key []).getD msg 0)
        (getv prob_keys key * getv prob_pt msg)) acc)
    (List.replicate n (List.replicate n 0))

/-- Division as Python performs it: raises (`none`) when the divisor is
zero. -/
def divChecked (a b : ℚ) : Option ℚ :=
  if b = 0 then none else some (a / b)

/-- `calc_pt_if_exist_ct_prob` from `src/main.py` (lines 77-98): posterior
`P(M|C)`.  `prob = [[0]*n]*n; for msg: for ct: prob[msg][ct] +=
prob_mc[msg][ct] / prob_c[ct]`; the division raises on `prob_c[ct] = 0`,
modelled by the `Option` monad. -/
def calc_pt_if_exist_ct_prob (prob_mc : List (List ℚ)) (prob_c : List ℚ)
    (n : Nat) : Option (List (List ℚ)) :=
  (List.range n).foldlM (fun acc msg =>
    (List.range n).foldlM (fun acc ct => do
      let q ← divChecked (getm prob_mc msg ct) (getv prob_c ct)
      pure (addAt2 acc msg ct q)) acc)
    (List.replicate n (List.replicate n 0))

/-- `calc_deterministic_func` from `src/main.py` (lines 102-127):
deterministic Bayes rule.  For each `ct`, scan `msg = 0..n-1` keeping
`(best_prob, best_msg)`, starting from `(-1.0, 0)`, replacing only on a
strictly greater posterior. -/
def calc_deterministic_func (pm_if_c : List (List ℚ)) (n : Nat) : List Nat :=
  (List.range n).foldl (fun delta ct =>
    let r := (List.range n).foldl (fun (s : ℚ × Nat) msg =>
      if getm pm_if_c msg ct > s.1 then (getm pm_if_c msg ct, msg) else s)
      (-1, 0)
    delta.set ct r.2)
    (List.replicate n 0)

/-- `calc_stochastic_func` from `src/main.py` (lines 130-162): stochastic
Bayes rule.  For each `ct`, collect `best_msgs`, the indices achieving the
running maximum (strictly-greater resets the list, equality appends), then
set `delta[ct][msg] = 1/len(best_msgs)` for each collected `msg`. -/
def calc_stochastic_func (pm_if_c : List (List ℚ)) (n : Nat) : List (List ℚ) :=
  (List.range n).foldl (fun delta ct =>
    let r := (List.range n).foldl (fun (s : ℚ × List Nat) msg =>
      if getm pm_if_c msg ct > s.1 then (getm pm_if_c msg ct, [msg])
      else if getm pm_if_c msg ct = s.1 then (s.1, s.2 ++ [msg])
      else s)
      (-1, [])
    let coef : ℚ := 1 / (r.2.length : ℚ)
    r.2.foldl (fun d msg => setAt2 d ct msg coef) delta)
    (List.replicate n (List.replicate n 0))

/-- `calc_average_loss_deterministic_func` from `src/main.py`
(lines 166-182): `1 - Σ_c prob_m_c[delta[c]][c]`. -/
def calc_average_loss_deterministic_func (prob_m_c : List (List ℚ))
    (delta : List Nat) (n : Nat) : ℚ :=
  1 - (List.range n).foldl (fun total c =>
    total + getm prob_m_c (delta.getD c 0) c) 0

/-- `calc_average_loss_stochastic_func` from `src/main.py`
(lines 185-203): `1 - Σ_c Σ_m prob_m_c[m][c] * delta[c][m]`. -/
def calc_average_loss_stochastic_func (prob_m_c : List (List ℚ))
    (delta : List (List ℚ)) (n : Nat) : ℚ :=
  1 - (List.range n).foldl (fun total c =>
    (List.range n).foldl (fun total m =>
      total + getm prob_m_c m c * getm delta c m) total) 0

/-! ### Basic lemmas about the update helpers -/

lemma getD_replicate_zero (n c : Nat) : (List.replicate n (0 : ℚ)).getD c 0 = 0 := by
  rw [List.getD_eq_getElem?_getD]
  rcases lt_or_ge c n with h | h
  · simp [List.getElem?_replicate, h]
  · rw [List.getElem?_eq_none (by simpa using h)]; rfl

lemma length_addAt (l : List ℚ) (i : Nat) (x : ℚ) : (addAt l i x).length = l.length := by
  simp [addAt]

lemma getD_addAt (l : List ℚ) (i c : Nat) (x : ℚ) (hi : i < l.length) :
    (addAt l i x).getD c 0 = l.getD c 0 + (if i = c then x else 0) := by
  by_cases h : i = c
  · subst h
    simp [addAt, List.getD_eq_getElem?_getD, List.getElem?_set_eq_of_lt _ hi,
      List.getElem?_eq_getElem hi]
  · simp [addAt, List.getD_eq_getElem?_getD, List.getElem?_set_ne h, h]

lemma length_addAt2 (p : List (List ℚ)) (i j : Nat) (x : ℚ) :
    (addAt2 p i j x).length = p.length := by
  simp [addAt2]

lemma getRow_addAt2 (p : List (List ℚ)) (i j i' : Nat) (x : ℚ) (hi : i < p.length) :
    (addAt2 p i j x).getD i' [] =
      if i = i' then addAt (p.getD i []) j x else p.getD i' [] := by
  by_cases h : i = i'
  · subst h
    simp [addAt2, List.getD_eq_getElem?_getD, List.getElem?_set_eq_of_lt _ hi]
  · simp [addAt2, List.getD_eq_getElem?_getD, List.getElem?_set_ne h, h]

lemma rowLength_addAt2 (p : List (List ℚ)) (i j i' : Nat) (x : ℚ) (hi : i < p.length) :
    ((addAt2 p i j x).getD i' []).length = (p.getD i' []).length := by
  rw [getRow_addAt2 _ _ _ _ _ hi]
  by_cases h : i = i'
  · subst h; simp [length_addAt]
  · simp [h]

lemma getm_addAt2 (p : List (List ℚ)) (i j i' j' : Nat) (x : ℚ)
    (hi : i < p.length) (hj : j < (p.getD i []).length) :
    getm (addAt2 p i j x) i' j' =
      getm p i' j' + (if i = i' ∧ j = j' then x else 0) := by
  unfold getm
  rw [getRow_addAt2 _ _ _ _ _ hi]
  by_cases h : i = i'
  · subst h
    rw [if_pos rfl, getD_addAt _ _ _ _ hj]
    by_cases h' : j = j' <;> simp [h']
  · simp [h]

/-! ### Generic characterization of `+=` accumulation folds -/

lemma foldl_addAt_length {α : Type} (f : α → Nat) (g : α → ℚ) (l : List α)
    (acc : List ℚ) :
    (l.foldl (fun acc a => addAt acc (f a) (g a)) acc).length = acc.length := by
  induction l generalizing acc with
  | nil => rfl
  | cons a l ih => rw [List.foldl_cons, ih, length_addAt]

lemma foldl_addAt_getD {α : Type} (f : α → Nat) (g : α → ℚ) (l : List α)
    (acc : List ℚ) (hl : ∀ a ∈ l, f a < acc.length) (c : Nat) :
    (l.foldl (fun acc a => addAt acc (f a) (g a)) acc).getD c 0
      = acc.getD c 0 + (l.map (fun a => if f a = c then g a else 0)).sum := by
  induction l generalizing acc with
  | nil => simp
  | cons a l ih =>
    rw [List.foldl_cons, ih _ (fun b hb => by
      rw [length_addAt]; exact hl b (List.mem_cons_of_mem _ hb)),
      getD_addAt _ _ _ _ (hl a (List.mem_cons_self _ _))]
    simp [add_assoc]

lemma foldl_addAt2_length {α : Type} (fi fj : α → Nat) (v : α → ℚ) (l : List α)
    (acc : List (List ℚ)) :
    (l.foldl (fun acc a => addAt2 acc (fi a) (fj a) (v a)) acc).length = acc.length := by
  induction l generalizing acc with
  | nil => rfl
  | cons a l ih => rw [List.foldl_cons, ih, length_addAt2]

lemma foldl_addAt2_rowLength {α : Type} (fi fj : α → Nat) (v : α → ℚ) (l : List α)
    (acc : List (List ℚ)) (hl : ∀ a ∈ l, fi a < acc.length) (i : Nat) :
    ((l.foldl (fun acc a => addAt2 acc (fi a) (fj a) (v a)) acc).getD i []).length
      = (acc.getD i []).length := by
  induction l generalizing acc with
  | nil => rfl
  | cons a l ih =>
    rw [List.foldl_cons, ih _ (fun b hb => by
      rw [length_addAt2]; exact hl b (List.mem_cons_of_mem _ hb)),
      rowLength_addAt2 _ _ _ _ _ (hl a (List.mem_cons_self _ _))]

lemma foldl_addAt2_getm {α : Type} (fi fj : α → Nat) (v : α → ℚ) (l : List α)
    (acc : List (List ℚ))
    (hl : ∀ a ∈ l, fi a < acc.length ∧ fj a < (acc.getD (fi a) []).length) (i j : Nat) :
    getm (l.foldl (fun acc a => addAt2 acc (fi a) (fj a) (v a)) acc) i j
      = getm acc i j + (l.map (fun a => if fi a = i ∧ fj a = j then v a else 0)).sum := by
  induction l generalizing acc with
  | nil => simp
  | cons a l ih =>
    rw [List.foldl_cons, ih _ (fun b hb => by
      constructor
      · rw [length_addAt2]; exact (hl b (List.mem_cons_of_mem _ hb)).1
      · rw [rowLength_addAt2 _ _ _ _ _ (hl a (List.mem_cons_self _ _)).1]
        exact (hl b (List.mem_cons_of_mem _ hb)).2),
      getm_addAt2 _ _ _ _ _ _ (hl a (List.mem_cons_self _ _)).1
        (hl a (List.mem_cons_self _ _)).2]
    simp [add_assoc]

/-! ### Flattening nested loops and list sums to `Finset` sums -/

def pairs (m k : Nat) : List (Nat × Nat) :=
  (List.range m).flatMap fun i => (List.range k).map fun j => (i, j)

lemma foldl_pair_flatten {β : Type} (g : β → Nat → Nat → β) (m k : Nat) (init : β) :
    (List.range m).foldl (fun acc i => (List.range k).foldl (fun acc j => g acc i j) acc) init
      = (pairs m k).foldl (fun acc p => g acc p.1 p.2) init := by
  unfold pairs
  generalize List.range m = ms
  induction ms generalizing init with
  | nil => rfl
  | cons i ms ih => simp [List.foldl_append, List.foldl_map, ih]

lemma mem_pairs {m k : Nat} {p : Nat × Nat} :
    p ∈ pairs m k ↔ p.1 < m ∧ p.2 < k := by
  obtain ⟨i, j⟩ := p
  simp [pairs, List.mem_flatMap, eq_comm]

lemma sum_map_range (n : Nat) (f : Nat → ℚ) :
    ((List.range n).map f).sum = ∑ i in Finset.range n, f i := by
  induction n with
  | zero => simp
  | succ n ih =>
    rw [List.range_succ, List.map_append, List.sum_append, Finset.sum_range_succ, ih]
    simp

lemma sum_map_pairs (m k : Nat) (h : Nat × Nat → ℚ) :
    ((pairs m k).map h).sum = ∑ i in Finset.range m, ∑ j in Finset.range k, h (i, j) := by
  unfold pairs
  induction m with
  | zero => simp
  | succ m ih =>
    rw [List.range_succ, Finset.sum_range_succ, ← ih]
    simp [List.map_map, List.sum_append, Function.comp, sum_map_range]

lemma getRow_replicate (n i : Nat) (hi : i < n) :
    (List.replicate n (List.replicate n (0 : ℚ))).getD i [] = List.replicate n 0 := by
  rw [List.getD_eq_getElem?_getD, List.getElem?_replicate, if_pos hi]
  rfl

lemma getm_replicate_zero (n i j : Nat) :
    getm (List.replicate n (List.replicate n (0 : ℚ))) i j = 0 := by
  unfold getm
  rcases lt_or_ge i n with h | h
  · rw [getRow_replicate n i h, getD_replicate_zero]
  · have hrow : (List.replicate n (List.replicate n (0 : ℚ))).getD i [] = [] := by
      rw [List.getD_eq_getElem?_getD, List.getElem?_eq_none (by simpa using h)]
      rfl
    rw [hrow]
    rfl

lemma list_sum_eq_sum_getv (l : List ℚ) :
    l.sum = ∑ i in Finset.range l.length, getv l i := by
  induction l with
  | nil => simp
  | cons a l ih =>
    rw [List.sum_cons, List.length_cons, Finset.sum_range_succ', ih]
    simp only [getv, List.getD_cons_succ, List.getD_cons_zero]
    ring

/-! ### Characterization of the distribution computations -/

lemma length_calc_ct_prob (pt keys : List ℚ) (table : List (List Nat)) (n : Nat) :
    (calc_ct_prob pt keys table n).length = n := by
  unfold calc_ct_prob
  rw [foldl_pair_flatten
      (fun acc i j => addAt acc ((table.getD j []).getD i 0) (getv keys j * getv pt i)) n n]
  rw [foldl_addAt_length (fun p => (table.getD p.2 []).getD p.1 0)
      (fun p => getv keys p.2 * getv pt p.1) (pairs n n) (List.replicate n 0)]
  exact List.length_replicate _ _

lemma calc_ct_prob_getv (pt keys : List ℚ) (table : List (List Nat)) (n : Nat)
    (htab : ∀ k m, k < n → m < n → (table.getD k []).getD m 0 < n) (c : Nat) :
    getv (calc_ct_prob pt keys table n) c
      = ∑ m in Finset.range n, ∑ k in Finset.range n,
          (if (table.getD k []).getD m 0 = c then getv keys k * getv pt m else 0) := by
  unfold getv calc_ct_prob
  rw [foldl_pair_flatten
      (fun acc i j => addAt acc ((table.getD j []).getD i 0) (getv keys j * getv pt i)) n n]
  rw [foldl_addAt_getD (fun p => (table.getD p.2 []).getD p.1 0)
      (fun p => getv keys p.2 * getv pt p.1) (pairs n n) (List.replicate n 0)
      (fun p hp => by
        rw [List.length_replicate]
        exact htab p.2 p.1 (mem_pairs.mp hp).2 (mem_pairs.mp hp).1)]
  rw [getD_replicate_zero, zero_add, sum_map_pairs]
  simp [getv]

lemma length_calc_pt_ct_prob (pt keys : List ℚ) (table : List (List Nat)) (n : Nat) :
    (calc_pt_ct_prob pt keys table n).length = n := by
  unfold calc_pt_ct_prob
  rw [foldl_pair_flatten
      (fun acc i j => addAt2 acc i ((table.getD j []).getD i 0) (getv keys j * getv pt i)) n n]
  rw [foldl_addAt2_length (fun p => p.1) (fun p => (table.getD p.2 []).getD p.1 0)
      (fun p => getv keys p.2 * getv pt p.1) (pairs n n)
      (List.replicate n (List.replicate n 0))]
  exact List.length_replicate _ _

lemma rowLength_calc_pt_ct_prob (pt keys : List ℚ) (table : List (List Nat)) (n : Nat)
    (i : Nat) (hi : i < n) :
    ((calc_pt_ct_prob pt keys table n).getD i []).length = n := by
  unfold calc_pt_ct_prob
  rw [foldl_pair_flatten
      (fun acc i j => addAt2 acc i ((table.getD j []).getD i 0) (getv keys j * getv pt i)) n n]
  rw [foldl_addAt2_rowLength (fun p => p.1) (fun p => (table.getD p.2 []).getD p.1 0)
      (fun p => getv keys p.2 * getv pt p.1) (pairs n n) _
      (fun p hp => by rw [List.length_replicate]; exact (mem_pairs.mp hp).1)]
  rw [getRow_replicate n i hi, List.length_replicate]

lemma calc_pt_ct_prob_getm (pt keys : List ℚ) (table : List (List Nat)) (n : Nat)
    (htab : ∀ k m, k < n → m < n → (table.getD k []).getD m 0 < n) (m c : Nat)
    (hm : m < n) :
    getm (calc_pt_ct_prob pt keys table n) m c
      = ∑ k in Finset.range n,
          (if (table.getD k []).getD m 0 = c then getv keys k * getv pt m else 0) := by
  unfold calc_pt_ct_prob
  rw [foldl_pair_flatten
      (fun acc i j => addAt2 acc i ((table.getD j []).getD i 0) (getv keys j * getv pt i)) n n]
  rw [foldl_addAt2_getm (fun p => p.1) (fun p => (table.getD p.2 []).getD p.1 0)
      (fun p => getv keys p.2 * getv pt p.1) (pairs n n) (List.replicate n (List.replicate n 0))
      (fun p hp => by
        obtain ⟨h1, h2⟩ := mem_pairs.mp hp
        refine ⟨by rw [List.length_replicate]; exact h1, ?_⟩
        rw [getRow_replicate n p.1 h1, List.length_replicate]
        exact htab p.2 p.1 h2 h1)]
  rw [getm_replicate_zero, zero_add, sum_map_pairs]
  rw [Finset.sum_comm]
  refine Finset.sum_congr rfl fun k _ => ?_
  simp only [ite_and]
  rw [Finset.sum_ite_eq' (Finset.range n) m
      (fun i => if (table.getD k []).getD i 0 = c then getv keys k * getv pt i else 0),
    if_pos (Finset.mem_range.mpr hm)]

lemma matrix_sum_eq_sum_getm (P : List (List ℚ)) (n : Nat) (hP : P.length = n)
    (hrows : ∀ i, i < n → (P.getD i []).length = n) :
    (P.map List.sum).sum = ∑ i in Finset.range n, ∑ j in Finset.range n, getm P i j := by
  rw [list_sum_eq_sum_getv, List.length_map, hP]
  refine Finset.sum_congr rfl fun i hi => ?_
  have hi' := Finset.mem_range.mp hi
  have hlt : i < P.length := by rw [hP]; exact hi'
  have hv : getv (P.map List.sum) i = (P.getD i []).sum := by
    unfold getv
    rw [List.getD_eq_getElem?_getD, List.getElem?_map,
      List.getElem?_eq_getElem hlt, List.getD_eq_getElem?_getD,
      List.getElem?_eq_getElem hlt]
    rfl
  rw [hv, list_sum_eq_sum_getv, hrows i hi']
  rfl

lemma triple_ite_sum (n : Nat) (t : Nat → Nat → Nat) (v : Nat → Nat → ℚ)
    (ht : ∀ k m, k < n → m < n → t k m < n) :
    ∑ c in Finset.range n, ∑ m in Finset.range n, ∑ k in Finset.range n,
        (if t k m = c then v k m else 0)
      = ∑ m in Finset.range n, ∑ k in Finset.range n, v k m := by
  rw [Finset.sum_comm]
  refine Finset.sum_congr rfl fun m hm => ?_
  rw [Finset.sum_comm]
  refine Finset.sum_congr rfl fun k hk => ?_
  rw [Finset.sum_ite_eq (Finset.range n) (t k m) (fun _ => v k m)]
  exact if_pos (Finset.mem_range.mpr (ht k m (Finset.mem_range.mp hk) (Finset.mem_range.mp hm)))

/-- C4: for priors of length `n` and an `n×n` cipher table with entries in
`[0, n)`, the output of `calc_ct_prob` at each ciphertext `c` is the sum of
`priorKey[k] * priorPT[m]` over all pairs `(k, m)` with
`cipherTable[k][m] = c`. -/
theorem ct_prob_is_bucket_sum (prob_pt prob_keys : List ℚ) (table : List (List Nat))
    (n : Nat) (hpt : prob_pt.length = n) (hkeys : prob_keys.length = n)
    (htlen : table.length = n) (hrows : ∀ row ∈ table, row.length = n)
    (htab : ∀ k, k < n → ∀ m, m < n → (table.getD k []).getD m 0 < n)
    (c : Nat) (hc : c < n) :
    getv (calc_ct_prob prob_pt prob_keys table n) c
      = ∑ k in Finset.range n, ∑ m in Finset.range n,
          (if (table.getD k []).getD m 0 = c
           then getv prob_keys k * getv prob_pt m else 0) := by
  rw [calc_ct_prob_getv _ _ _ _ (fun k m hk hm => htab k hk m hm), Finset.sum_comm]

/-- Witness for `ct_prob_is_bucket_sum` at the spec's worked scenario
(n = 2, uniform priors, identity and swap keys). -/
theorem ct_prob_is_bucket_sum_witness :
    getv (calc_ct_prob [1/2, 1/2] [1/2, 1/2] [[0, 1], [1, 0]] 2) 0
      = ∑ k in Finset.range 2, ∑ m in Finset.range 2,
          (if (([[0, 1], [1, 0]] : List (List Nat)).getD k []).getD m 0 = 0
           then getv [1/2, 1/2] k * getv [1/2, 1/2] m else 0) :=
  ct_prob_is_bucket_sum [1/2, 1/2] [1/2, 1/2] [[0, 1], [1, 0]] 2
    (by decide) (by decide) (by decide)
    (by decide) (by decide) 0 (by decide)

/-- C10: summing the joint matrix over plaintexts reproduces the ciphertext
distribution: for every `c < n`,
`Σ_m calc_pt_ct_prob(...)[m][c] = calc_ct_prob(...)[c]`. -/
theorem joint_marginalizes_to_ct_prob (prob_pt prob_keys : List ℚ)
    (table : List (List Nat)) (n : Nat)
    (hpt : prob_pt.length = n) (hkeys : prob_keys.length = n)
    (htlen : table.length = n) (hrows : ∀ row ∈ table, row.length = n)
    (htab : ∀ k, k < n → ∀ m, m < n → (table.getD k []).getD m 0 < n)
    (c : Nat) (hc : c < n) :
    ∑ m in Finset.range n, getm (calc_pt_ct_prob prob_pt prob_keys table n) m c
      = getv (calc_ct_prob prob_pt prob_keys table n) c := by
  have htab' : ∀ k m, k < n → m < n → (table.getD k []).getD m 0 < n :=
    fun k m hk hm => htab k hk m hm
  rw [calc_ct_prob_getv _ _ _ _ htab']
  refine Finset.sum_congr rfl fun m hm => ?_
  exact calc_pt_ct_prob_getm _ _ _ _ htab' m c (Finset.mem_range.mp hm)

/-- Witness for `joint_marginalizes_to_ct_prob` at the spec's worked
scenario. -/
theorem joint_marginalizes_to_ct_prob_witness :
    ∑ m in Finset.range 2,
        getm (calc_pt_ct_prob [1/2, 1/2] [1/2, 1/2] [[0, 1], [1, 0]] 2) m 1
      = getv (calc_ct_prob [1/2, 1/2] [1/2, 1/2] [[0, 1], [1, 0]] 2) 1 :=
  joint_marginalizes_to_ct_prob [1/2, 1/2] [1/2, 1/2] [[0, 1], [1, 0]] 2
    (by decide) (by decide) (by decide) (by decide) (by decide) 1 (by decide)

/-- C5: if both priors have length `n`, sum to 1 and are entrywise
non-negative, and every cipher-table entry lies in `[0, n)`, then the
ciphertext distribution and the joint matrix each have total mass 1. -/
theorem distributions_total_mass_one (prob_pt prob_keys : List ℚ)
    (table : List (List Nat)) (n : Nat)
    (hpt : prob_pt.length = n) (hkeys : prob_keys.length = n)
    (hpt1 : prob_pt.sum = 1) (hkeys1 : prob_keys.sum = 1)
    (hptpos : ∀ x ∈ prob_pt, 0 ≤ x) (hkeyspos : ∀ x ∈ prob_keys, 0 ≤ x)
    (htab : ∀ k, k < n → ∀ m, m < n → (table.getD k []).getD m 0 < n) :
    (calc_ct_prob prob_pt prob_keys table n).sum = 1 ∧
    ((calc_pt_ct_prob prob_pt prob_keys table n).map List.sum).sum = 1 := by
  have htab' : ∀ k m, k < n → m < n → (table.getD k []).getD m 0 < n :=
    fun k m hk hm => htab k hk m hm
  have hpt_s : ∑ m in Finset.range n, getv prob_pt m = 1 := by
    rw [← hpt1, list_sum_eq_sum_getv, hpt]
  have hkeys_s : ∑ k in Finset.range n, getv prob_keys k = 1 := by
    rw [← hkeys1, list_sum_eq_sum_getv, hkeys]
  have hmass : ∑ m in Finset.range n, ∑ k in Finset.range n,
      getv prob_keys k * getv prob_pt m = 1 := by
    calc ∑ m in Finset.range n, ∑ k in Finset.range n,
          getv prob_keys k * getv prob_pt m
        = ∑ m in Finset.range n,
            (∑ k in Finset.range n, getv prob_keys k) * getv prob_pt m := by
          refine Finset.sum_congr rfl fun m _ => ?_
          rw [Finset.sum_mul]
      _ = ∑ m in Finset.range n, getv prob_pt m := by
          rw [hkeys_s]
          simp
      _ = 1 := hpt_s
  constructor
  · rw [list_sum_eq_sum_getv, length_calc_ct_prob]
    calc ∑ c in Finset.range n, getv (calc_ct_prob prob_pt prob_keys table n) c
        = ∑ c in Finset.range n, ∑ m in Finset.range n, ∑ k in Finset.range n,
            (if (table.getD k []).getD m 0 = c
             then getv prob_keys k * getv prob_pt m else 0) :=
          Finset.sum_congr rfl fun c _ => calc_ct_prob_getv _ _ _ _ htab' c
      _ = 1 := by
          rw [triple_ite_sum n (fun k m => (table.getD k []).getD m 0)
            (fun k m => getv prob_keys k * getv prob_pt m) htab']
          exact hmass
  · rw [matrix_sum_eq_sum_getm _ n (length_calc_pt_ct_prob _ _ _ _)
      (rowLength_calc_pt_ct_prob prob_pt prob_keys table n)]
    calc ∑ m in Finset.range n, ∑ c in Finset.range n,
          getm (calc_pt_ct_prob prob_pt prob_keys table n) m c
        = ∑ m in Finset.range n, ∑ c in Finset.range n, ∑ k in Finset.range n,
            (if (table.getD k []).getD m 0 = c
             then getv prob_keys k * getv prob_pt m else 0) := by
          refine Finset.sum_congr rfl fun m hm => Finset.sum_congr rfl fun c _ => ?_
          exact calc_pt_ct_prob_getm _ _ _ _ htab' m c (Finset.mem_range.mp hm)
      _ = 1 := by
          rw [Finset.sum_comm, triple_ite_sum n (fun k m => (table.getD k []).getD m 0)
            (fun k m => getv prob_keys k * getv prob_pt m) htab']
          exact hmass

/-- Witness for `distributions_total_mass_one` at the spec's worked
scenario. -/
theorem distributions_total_mass_one_witness :
    (calc_ct_prob [1/2, 1/2] [1/2, 1/2] [[0, 1], [1, 0]] 2).sum = 1 ∧
    ((calc_pt_ct_prob [1/2, 1/2] [1/2, 1/2] [[0, 1], [1, 0]] 2).map List.sum).sum = 1 :=
  distributions_total_mass_one [1/2, 1/2] [1/2, 1/2] [[0, 1], [1, 0]] 2
    (by decide) (by decide) (by norm_num) (by norm_num)
    (by norm_num) (by norm_num) (by decide)

/-! ### The posterior computation: failure and success -/

/-- The matrix the posterior loop builds when no division fails. -/
def posteriorPure (prob_mc : List (List ℚ)) (prob_c : List ℚ) (n : Nat) :
    List (List ℚ) :=
  (List.range n).foldl (fun acc msg =>
    (List.range n).foldl (fun acc ct =>
      addAt2 acc msg ct (getm prob_mc msg ct / getv prob_c ct)) acc)
    (List.replicate n (List.replicate n 0))

lemma inner_posterior_none (prob_mc : List (List ℚ)) (prob_c : List ℚ) (msg : Nat)
    (l : List Nat) (hz : ∃ ct ∈ l, getv prob_c ct = 0) (acc : List (List ℚ)) :
    (l.foldlM (fun acc ct => do
      let q ← divChecked (getm prob_mc msg ct) (getv prob_c ct)
      pure (addAt2 acc msg ct q)) acc : Option (List (List ℚ))) = none := by
  induction l generalizing acc with
  | nil => simp at hz
  | cons a l ih =>
    rw [List.foldlM_cons]
    by_cases h : getv prob_c a = 0
    · simp [divChecked, h]
    · obtain ⟨ct, hct, hz'⟩ := hz
      rcases List.mem_cons.mp hct with rfl | hmem
      · exact absurd hz' h
      · simp only [divChecked, if_neg h, Option.some_bind, Option.bind_eq_bind]
        exact ih ⟨ct, hmem, hz'⟩ _

lemma inner_posterior_some (prob_mc : List (List ℚ)) (prob_c : List ℚ) (msg : Nat)
    (l : List Nat) (hnz : ∀ ct ∈ l, getv prob_c ct ≠ 0) (acc : List (List ℚ)) :
    (l.foldlM (fun acc ct => do
      let q ← divChecked (getm prob_mc msg ct) (getv prob_c ct)
      pure (addAt2 acc msg ct q)) acc : Option (List (List ℚ)))
      = some (l.foldl (fun acc ct =>
          addAt2 acc msg ct (getm prob_mc msg ct / getv prob_c ct)) acc) := by
  induction l generalizing acc with
  | nil => rfl
  | cons a l ih =>
    rw [List.foldlM_cons, List.foldl_cons]
    simp only [divChecked, if_neg (hnz a (List.mem_cons_self _ _)), Option.some_bind,
      Option.bind_eq_bind]
    exact ih (fun ct h => hnz ct (List.mem_cons_of_mem _ h)) _

lemma outer_posterior_none (prob_mc : List (List ℚ)) (prob_c : List ℚ) (n : Nat)
    (hz : ∃ c, c < n ∧ getv prob_c c = 0) (ms : List Nat) (hms : ms ≠ [])
    (acc : List (List ℚ)) :
    (ms.foldlM (fun acc msg => (List.range n).foldlM (fun acc ct => do
        let q ← divChecked (getm prob_mc msg ct) (getv prob_c ct)
        pure (addAt2 acc msg ct q)) acc) acc : Option (List (List ℚ))) = none := by
  obtain ⟨c, hc, hz0⟩ := hz
  cases ms with
  | nil => contradiction
  | cons a ms =>
    rw [List.foldlM_cons, inner_posterior_none prob_mc prob_c a (List.range n)
      ⟨c, List.mem_range.mpr hc, hz0⟩ acc]
    rfl

lemma posterior_none (prob_mc : List (List ℚ)) (prob_c : List ℚ) (n : Nat)
    (hz : ∃ c, c < n ∧ getv prob_c c = 0) :
    calc_pt_if_exist_ct_prob prob_mc prob_c n = none := by
  unfold calc_pt_if_exist_ct_prob
  refine outer_posterior_none prob_mc prob_c n hz (List.range n) ?_ _
  obtain ⟨c, hc, _⟩ := hz
  intro hnil
  have := List.range_eq_nil.mp hnil
  omega

lemma outer_posterior_some (prob_mc : List (List ℚ)) (prob_c : List ℚ) (n : Nat)
    (hnz : ∀ c, c < n → getv prob_c c ≠ 0) (ms : List Nat) (acc : List (List ℚ)) :
    (ms.foldlM (fun acc msg => (List.range n).foldlM (fun acc ct => do
        let q ← divChecked (getm prob_mc msg ct) (getv prob_c ct)
        pure (addAt2 acc msg ct q)) acc) acc : Option (List (List ℚ)))
      = some (ms.foldl (fun acc msg => (List.range n).foldl (fun acc ct =>
          addAt2 acc msg ct (getm prob_mc msg ct / getv prob_c ct)) acc) acc) := by
  induction ms generalizing acc with
  | nil => rfl
  | cons a ms ih =>
    rw [List.foldlM_cons, List.foldl_cons,
      inner_posterior_some prob_mc prob_c a (List.range n)
        (fun ct hct => hnz ct (List.mem_range.mp hct)) acc]
    simp only [Option.some_bind, Option.bind_eq_bind]
    exact ih _

lemma posterior_some (prob_mc : List (List ℚ)) (prob_c : List ℚ) (n : Nat)
    (hnz : ∀ c, c < n → getv prob_c c ≠ 0) :
    calc_pt_if_exist_ct_prob prob_mc prob_c n
      = some (posteriorPure prob_mc prob_c n) := by
  unfold calc_pt_if_exist_ct_prob posteriorPure
  exact outer_posterior_some prob_mc prob_c n hnz (List.range n)
    (List.replicate n (List.replicate n 0))

lemma posteriorPure_getm (prob_mc : List (List ℚ)) (prob_c : List ℚ) (n m c : Nat)
    (hm : m < n) (hc : c < n) :
    getm (posteriorPure prob_mc prob_c n) m c
      = getm prob_mc m c / getv prob_c c := by
  unfold posteriorPure
  rw [foldl_pair_flatten
      (fun acc i j => addAt2 acc i j (getm prob_mc i j / getv prob_c j)) n n]
  rw [foldl_addAt2_getm (fun p => p.1) (fun p => p.2)
      (fun p => getm prob_mc p.1 p.2 / getv prob_c p.2) (pairs n n)
      (List.replicate n (List.replicate n 0))
      (fun p hp => ⟨by rw [List.length_replicate]; exact (mem_pairs.mp hp).1, by
        rw [getRow_replicate n p.1 (mem_pairs.mp hp).1, List.length_replicate]
        exact (mem_pairs.mp hp).2⟩) m c]
  rw [getm_replicate_zero, zero_add, sum_map_pairs]
  have step : ∀ i, (∑ j in Finset.range n,
      (if i = m ∧ j = c then getm prob_mc i j / getv prob_c j else 0))
      = if i = m then getm prob_mc i c / getv prob_c c else 0 := by
    intro i
    by_cases hi : i = m
    · subst hi
      simp only [true_and]
      rw [Finset.sum_ite_eq' (Finset.range n) c
        (fun j => getm prob_mc i j / getv prob_c j)]
      simp [Finset.mem_range.mpr hc]
    · simp [hi]
  calc ∑ i in Finset.range n, ∑ j in Finset.range n,
        (if (i, j).1 = m ∧ (i, j).2 = c
         then getm prob_mc (i, j).1 (i, j).2 / getv prob_c (i, j).2 else 0)
      = ∑ i in Finset.range n, (if i = m
          then getm prob_mc i c / getv prob_c c else 0) :=
        Finset.sum_congr rfl fun i _ => step i
    _ = getm prob_mc m c / getv prob_c c := by
        rw [Finset.sum_ite_eq' (Finset.range n) m
          (fun i => getm prob_mc i c / getv prob_c c)]
        simp [Finset.mem_range.mpr hm]

/-- C3: if some ciphertext has probability zero, the posterior computation
raises (returns no result); if every ciphertext probability is positive, it
returns normally. -/
theorem posterior_raises_iff_unreachable (prob_mc : List (List ℚ))
    (prob_c : List ℚ) (n : Nat) :
    ((∃ c, c < n ∧ getv prob_c c = 0) →
      calc_pt_if_exist_ct_prob prob_mc prob_c n = none) ∧
    ((∀ c, c < n → 0 < getv prob_c c) →
      ∃ P, calc_pt_if_exist_ct_prob prob_mc prob_c n = some P) := by
  constructor
  · exact posterior_none prob_mc prob_c n
  · intro hpos
    exact ⟨posteriorPure prob_mc prob_c n,
      posterior_some prob_mc prob_c n (fun c hc => ne_of_gt (hpos c hc))⟩

/-- Witness for `posterior_raises_iff_unreachable`: the failing branch on a
joint matrix with an unreachable ciphertext column, and the succeeding
branch on the spec's worked scenario. -/
theorem posterior_raises_iff_unreachable_witness :
    calc_pt_if_exist_ct_prob [[1/2, 0], [1/2, 0]] [1, 0] 2 = none ∧
    ∃ P, calc_pt_if_exist_ct_prob [[1/4, 1/4], [1/4, 1/4]] [1/2, 1/2] 2 = some P :=
  ⟨(posterior_raises_iff_unreachable [[1/2, 0], [1/2, 0]] [1, 0] 2).1
      ⟨1, by decide, by norm_num [getv]⟩,
    (posterior_raises_iff_unreachable [[1/4, 1/4], [1/4, 1/4]] [1/2, 1/2] 2).2
      (by intro c hc; interval_cases c <;> norm_num [getv])⟩

/-- C6: for valid inputs, any column `c` with positive ciphertext
probability of the posterior matrix that `calc_pt_if_exist_ct_prob`
returns sums to 1. -/
theorem posterior_column_sums_to_one (prob_pt prob_keys : List ℚ)
    (table : List (List Nat)) (n : Nat)
    (hpt : prob_pt.length = n) (hkeys : prob_keys.length = n)
    (hpt1 : prob_pt.sum = 1) (hkeys1 : prob_keys.sum = 1)
    (hptpos : ∀ x ∈ prob_pt, 0 ≤ x) (hkeyspos : ∀ x ∈ prob_keys, 0 ≤ x)
    (htab : ∀ k, k < n → ∀ m, m < n → (table.getD k []).getD m 0 < n)
    (P : List (List ℚ))
    (hP : calc_pt_if_exist_ct_prob (calc_pt_ct_prob prob_pt prob_keys table n)
      (calc_ct_prob prob_pt prob_keys table n) n = some P)
    (c : Nat) (hc : c < n)
    (hpos : 0 < getv (calc_ct_prob prob_pt prob_keys table n) c) :
    ∑ m in Finset.range n, getm P m c = 1 := by
  have htab' : ∀ k m, k < n → m < n → (table.getD k []).getD m 0 < n :=
    fun k m hk hm => htab k hk m hm
  have hnz : ∀ c', c' < n → getv (calc_ct_prob prob_pt prob_keys table n) c' ≠ 0 := by
    intro c' hc' h0
    rw [posterior_none _ _ _ ⟨c', hc', h0⟩] at hP
    exact Option.noConfusion hP
  rw [posterior_some _ _ _ hnz] at hP
  obtain rfl : posteriorPure (calc_pt_ct_prob prob_pt prob_keys table n)
      (calc_ct_prob prob_pt prob_keys table n) n = P := Option.some.inj hP
  have hmarg : ∑ m in Finset.range n,
      getm (calc_pt_ct_prob prob_pt prob_keys table n) m c
        = getv (calc_ct_prob prob_pt prob_keys table n) c := by
    rw [calc_ct_prob_getv _ _ _ _ htab']
    refine Finset.sum_congr rfl fun m hm => ?_
    exact calc_pt_ct_prob_getm _ _ _ _ htab' m c (Finset.mem_range.mp hm)
  calc ∑ m in Finset.range n,
        getm (posteriorPure (calc_pt_ct_prob prob_pt prob_keys table n)
          (calc_ct_prob prob_pt prob_keys table n) n) m c
      = ∑ m in Finset.range n,
          getm (calc_pt_ct_prob prob_pt prob_keys table n) m c
            / getv (calc_ct_prob prob_pt prob_keys table n) c := by
        refine Finset.sum_congr rfl fun m hm => ?_
        exact posteriorPure_getm _ _ _ _ _ (Finset.mem_range.mp hm) hc
    _ = 1 := by
        rw [← Finset.sum_div, hmarg, div_self (hnz c hc)]

/-- Witness for `posterior_column_sums_to_one` at the spec's worked
scenario. -/
theorem posterior_column_sums_to_one_witness :
    ∑ m in Finset.range 2,
        getm [[(1 : ℚ)/2, 1/2], [1/2, 1/2]] m 0 = 1 :=
  posterior_column_sums_to_one [1/2, 1/2] [1/2, 1/2] [[0, 1], [1, 0]] 2
    (by decide) (by decide) (by norm_num) (by norm_num)
    (by norm_num) (by norm_num) (by decide)
    [[1/2, 1/2], [1/2, 1/2]]
    (by norm_num [calc_pt_if_exist_ct_prob, calc_pt_ct_prob, calc_ct_prob,
      List.range_succ, divChecked, getm, getv, addAt2, addAt,
      List.replicate_succ, List.set_cons_zero, List.set_cons_succ])
    0 (by decide)
    (by norm_num [calc_ct_prob, List.range_succ, getv, addAt,
      List.replicate_succ, List.set_cons_zero, List.set_cons_succ])

/-! ### The deterministic Bayes rule: argmax scan -/

/-- One step of the `best_prob`/`best_msg` scan in `calc_deterministic_func`. -/
def detStep (col : Nat → ℚ) (s : ℚ × Nat) (msg : Nat) : ℚ × Nat :=
  if col msg > s.1 then (col msg, msg) else s

/-- The inner scan of `calc_deterministic_func` over one column. -/
def detScan (col : Nat → ℚ) (n : Nat) : ℚ × Nat :=
  (List.range n).foldl (detStep col) (-1, 0)

lemma foldl_set_length {β : Type} (f : Nat → β → β) (d : β) (l : List Nat)
    (acc : List β) :
    (l.foldl (fun acc i => acc.set i (f i (acc.getD i d))) acc).length = acc.length := by
  induction l generalizing acc with
  | nil => rfl
  | cons a l ih => rw [List.foldl_cons, ih, List.length_set]

lemma foldl_rowset_range {β : Type} (d : β) (f : Nat → β → β) (n : Nat)
    (acc : List β) (hlen : n ≤ acc.length) (c : Nat) :
    ((List.range n).foldl (fun acc i => acc.set i (f i (acc.getD i d))) acc).getD c d
      = if c < n then f c (acc.getD c d) else acc.getD c d := by
  induction n with
  | zero => simp
  | succ n ih =>
    rw [List.range_succ, List.foldl_append, List.foldl_cons, List.foldl_nil]
    have hX : ((List.range n).foldl
        (fun acc i => acc.set i (f i (acc.getD i d))) acc).length = acc.length :=
      foldl_set_length f d (List.range n) acc
    have hn : n < ((List.range n).foldl
        (fun acc i => acc.set i (f i (acc.getD i d))) acc).length := by omega
    by_cases h : c = n
    · subst h
      rw [List.getD_eq_getElem?_getD, List.getElem?_set_eq_of_lt _ hn]
      rw [ih (by omega), if_neg (lt_irrefl c), if_pos (Nat.lt_succ_self c)]
      rfl
    · rw [List.getD_eq_getElem?_getD, List.getElem?_set_ne (fun hh => h hh.symm),
        ← List.getD_eq_getElem?_getD, ih (by omega)]
      by_cases hcn : c < n
      · rw [if_pos hcn, if_pos (by omega)]
      · rw [if_neg hcn, if_neg (by omega)]

lemma calc_deterministic_func_eq (pm : List (List ℚ)) (n : Nat) :
    calc_deterministic_func pm n = (List.range n).foldl
      (fun delta ct => delta.set ct
        ((fun ct (_ : Nat) => (detScan (fun msg => getm pm msg ct) n).2) ct
          (delta.getD ct 0)))
      (List.replicate n 0) := rfl

lemma det_rule_getD (pm : List (List ℚ)) (n c : Nat) (hc : c < n) :
    (calc_deterministic_func pm n).getD c 0
      = (detScan (fun msg => getm pm msg c) n).2 := by
  rw [calc_deterministic_func_eq pm n,
    foldl_rowset_range 0 (fun ct _ => (detScan (fun msg => getm pm msg ct) n).2)
      n (List.replicate n 0) (by rw [List.length_replicate]) c,
    if_pos hc]

/-- The scan over a column with non-negative entries returns the value and
first position of the column maximum. -/
lemma detScan_spec (col : Nat → ℚ) (n : Nat) (hn : 0 < n)
    (hpos : ∀ m, m < n → 0 ≤ col m) :
    col (detScan col n).2 = (detScan col n).1 ∧ (detScan col n).2 < n ∧
    (∀ i, i < n → col i ≤ (detScan col n).1) ∧
    (∀ i, i < (detScan col n).2 → col i < (detScan col n).1) := by
  induction n, hn using Nat.le_induction with
  | base =>
    have h1 : detScan col 1 = (col 0, 0) := by
      unfold detScan
      rw [show List.range 1 = [0] from rfl, List.foldl_cons, List.foldl_nil]
      unfold detStep
      rw [if_pos (lt_of_lt_of_le (by norm_num) (hpos 0 Nat.one_pos))]
    rw [h1]
    refine ⟨rfl, Nat.one_pos, ?_, ?_⟩
    · intro i hi
      interval_cases i
      exact le_refl _
    · intro i hi
      exact absurd hi (Nat.not_lt_zero i)
  | succ n hn ih =>
    obtain ⟨hval, hlt, hmax, hfirst⟩ := ih (fun m hm => hpos m (by omega))
    have hstep : detScan col (n + 1) = detStep col (detScan col n) n := by
      unfold detScan
      rw [List.range_succ, List.foldl_append, List.foldl_cons, List.foldl_nil]
    rw [hstep]
    unfold detStep
    by_cases h : col n > (detScan col n).1
    · rw [if_pos h]
      refine ⟨rfl, Nat.lt_succ_self n, ?_, ?_⟩
      · intro i hi
        rcases Nat.lt_succ_iff_lt_or_eq.mp hi with hi' | rfl
        · exact le_of_lt (lt_of_le_of_lt (hmax i hi') h)
        · exact le_refl _
      · intro i hi
        exact lt_of_le_of_lt (hmax i hi) h
    · rw [if_neg h]
      refine ⟨hval, by omega, ?_, hfirst⟩
      intro i hi
      rcases Nat.lt_succ_iff_lt_or_eq.mp hi with hi' | rfl
      · exact hmax i hi'
      · exact le_of_not_lt h

/-- C1 (amended: posterior entries non-negative): for each ciphertext
`c < n`, the deterministic rule picks an index below `n` that achieves the
column maximum of the posterior and is strictly better than every earlier
index, i.e. the smallest index achieving the maximum. -/
theorem deterministic_rule_is_first_argmax (pm : List (List ℚ)) (n : Nat)
    (hpos : ∀ m, m < n → ∀ c, c < n → 0 ≤ getm pm m c)
    (c : Nat) (hc : c < n) :
    (calc_deterministic_func pm n).getD c 0 < n ∧
    (∀ m, m < n →
      getm pm m c ≤ getm pm ((calc_deterministic_func pm n).getD c 0) c) ∧
    (∀ m, m < (calc_deterministic_func pm n).getD c 0 →
      getm pm m c < getm pm ((calc_deterministic_func pm n).getD c 0) c) := by
  rw [det_rule_getD pm n c hc]
  obtain ⟨hval, hlt, hmax, hfirst⟩ := detScan_spec (fun m => getm pm m c) n
    (by omega) (fun m hm => hpos m hm c hc)
  refine ⟨hlt, ?_, ?_⟩
  · intro m hm
    calc getm pm m c ≤ (detScan (fun m => getm pm m c) n).1 := hmax m hm
      _ = getm pm ((detScan (fun m => getm pm m c) n).2) c := hval.symm
  · intro m hm
    calc getm pm m c < (detScan (fun m => getm pm m c) n).1 := hfirst m hm
      _ = getm pm ((detScan (fun m => getm pm m c) n).2) c := hval.symm

/-- Witness for `deterministic_rule_is_first_argmax` on the spec's worked
scenario (uniform posterior, tie broken to index 0). -/
theorem deterministic_rule_is_first_argmax_witness :
    (calc_deterministic_func [[1/2, 1/2], [1/2, 1/2]] 2).getD 0 0 < 2 ∧
    (∀ m, m < 2 →
      getm [[1/2, 1/2], [1/2, 1/2]] m 0 ≤ getm [[1/2, 1/2], [1/2, 1/2]]
        ((calc_deterministic_func [[1/2, 1/2], [1/2, 1/2]] 2).getD 0 0) 0) ∧
    (∀ m, m < (calc_deterministic_func [[1/2, 1/2], [1/2, 1/2]] 2).getD 0 0 →
      getm [[1/2, 1/2], [1/2, 1/2]] m 0 < getm [[1/2, 1/2], [1/2, 1/2]]
        ((calc_deterministic_func [[1/2, 1/2], [1/2, 1/2]] 2).getD 0 0) 0) :=
  deterministic_rule_is_first_argmax [[1/2, 1/2], [1/2, 1/2]] 2
    (by intro m hm c hc; interval_cases m <;> interval_cases c <;> norm_num [getm])
    0 (by decide)

/-- Counterexample to C1 as stated (no non-negativity restriction): on the
matrix `[[-2, 0], [-3/2, 0]]` the code returns index 0 for ciphertext 0,
yet entry `-2` at index 0 is strictly below entry `-3/2` at index 1, so
index 0 does not achieve the column maximum (the smallest index achieving
it is 1).  The scan never replaces its initial `best_msg = 0` because no
entry exceeds the initial `best_prob = -1.0`. -/
theorem deterministic_rule_is_first_argmax_counterexample :
    (calc_deterministic_func [[-2, 0], [-3/2, 0]] 2).getD 0 0 = 0 ∧
    getm [[-2, 0], [-3/2, 0]] 0 0 < getm [[-2, 0], [-3/2, 0]] 1 0 := by
  constructor
  · norm_num [calc_deterministic_func, List.range_succ, getm,
      List.replicate_succ, List.set_cons_zero, List.set_cons_succ]
  · norm_num [getm]

/-! ### The stochastic Bayes rule: tie-set scan -/

/-- One step of the `best_prob`/`best_msgs` scan in `calc_stochastic_func`. -/
def stochStep (col : Nat → ℚ) (s : ℚ × List Nat) (msg : Nat) : ℚ × List Nat :=
  if col msg > s.1 then (col msg, [msg])
  else if col msg = s.1 then (s.1, s.2 ++ [msg])
  else s

/-- The inner scan of `calc_stochastic_func` over one column. -/
def stochScan (col : Nat → ℚ) (n : Nat) : ℚ × List Nat :=
  (List.range n).foldl (stochStep col) (-1, [])

lemma set_getD_self (l : List (List ℚ)) (i : Nat) (hi : i < l.length) :
    l.set i (l.getD i []) = l := by
  apply List.ext_getElem?
  intro j
  by_cases h : i = j
  · subst h
    rw [List.getElem?_set_eq_of_lt _ hi, List.getD_eq_getElem?_getD,
      List.getElem?_eq_getElem hi]
    rfl
  · rw [List.getElem?_set_ne h]

lemma foldl_setAt2_eq_set (ms : List Nat) (ct : Nat) (coef : ℚ)
    (acc : List (List ℚ)) (hct : ct < acc.length) :
    ms.foldl (fun d msg => setAt2 d ct msg coef) acc
      = acc.set ct (ms.foldl (fun row msg => row.set msg coef) (acc.getD ct [])) := by
  induction ms generalizing acc with
  | nil =>
    rw [List.foldl_nil, List.foldl_nil, set_getD_self acc ct hct]
  | cons a ms ih =>
    rw [List.foldl_cons, List.foldl_cons]
    have hstep : setAt2 acc ct a coef = acc.set ct ((acc.getD ct []).set a coef) := rfl
    rw [hstep, ih _ (by rw [List.length_set]; exact hct), List.set_set]
    congr 1
    rw [List.getD_eq_getElem?_getD, List.getElem?_set_eq_of_lt _ hct]
    rfl

lemma foldl_congr_inv {β : Type} (I : β → Prop) (f g : β → Nat → β) (l : List Nat)
    (acc : β) (hacc : I acc)
    (hf : ∀ b i, i ∈ l → I b → f b i = g b i)
    (hpres : ∀ b i, i ∈ l → I b → I (g b i)) :
    l.foldl f acc = l.foldl g acc := by
  induction l generalizing acc with
  | nil => rfl
  | cons a l ih =>
    rw [List.foldl_cons, List.foldl_cons, hf acc a (List.mem_cons_self _ _) hacc]
    exact ih _ (hpres acc a (List.mem_cons_self _ _) hacc)
      (fun b i hi hb => hf b i (List.mem_cons_of_mem _ hi) hb)
      (fun b i hi hb => hpres b i (List.mem_cons_of_mem _ hi) hb)

lemma calc_stochastic_func_eq (pm : List (List ℚ)) (n : Nat) :
    calc_stochastic_func pm n = (List.range n).foldl
      (fun delta ct => delta.set ct
        ((fun ct row => (stochScan (fun msg => getm pm msg ct) n).2.foldl
            (fun row msg => row.set msg
              (1 / (((stochScan (fun msg => getm pm msg ct) n).2.length : ℚ))))
            row) ct (delta.getD ct [])))
      (List.replicate n (List.replicate n 0)) := by
  unfold calc_stochastic_func
  refine foldl_congr_inv (fun delta => delta.length = n) _ _ (List.range n)
    (List.replicate n (List.replicate n 0)) (List.length_replicate _ _)
    (fun delta ct hct hlen => ?_) (fun delta ct hct hlen => ?_)
  · have hct' : ct < delta.length := by
      rw [hlen]; exact List.mem_range.mp hct
    exact foldl_setAt2_eq_set _ ct _ delta hct'
  · show (delta.set ct _).length = n
    rw [List.length_set]
    exact hlen

lemma stoch_rule_row (pm : List (List ℚ)) (n c : Nat) (hc : c < n) :
    (calc_stochastic_func pm n).getD c []
      = (stochScan (fun msg => getm pm msg c) n).2.foldl
          (fun row msg => row.set msg
            (1 / (((stochScan (fun msg => getm pm msg c) n).2.length : ℚ))))
          (List.replicate n 0) := by
  rw [calc_stochastic_func_eq pm n,
    foldl_rowset_range [] (fun ct row => (stochScan (fun msg => getm pm msg ct) n).2.foldl
      (fun row msg => row.set msg
        (1 / (((stochScan (fun msg => getm pm msg ct) n).2.length : ℚ)))) row)
      n (List.replicate n (List.replicate n 0)) (by rw [List.length_replicate]) c,
    if_pos hc, getRow_replicate n c hc]

lemma foldl_set_const_getD (ms : List Nat) (coef : ℚ) (row : List ℚ)
    (hms : ∀ m ∈ ms, m < row.length) (m : Nat) :
    (ms.foldl (fun row msg => row.set msg coef) row).getD m 0
      = if m ∈ ms then coef else row.getD m 0 := by
  induction ms generalizing row with
  | nil => simp
  | cons a ms ih =>
    rw [List.foldl_cons, ih _ (fun x hx => by
      rw [List.length_set]; exact hms x (List.mem_cons_of_mem _ hx))]
    by_cases h : m ∈ ms
    · rw [if_pos h, if_pos (List.mem_cons_of_mem _ h)]
    · by_cases h2 : m = a
      · subst h2
        rw [if_neg h, if_pos (List.mem_cons_self _ _), List.getD_eq_getElem?_getD,
          List.getElem?_set_eq_of_lt _ (hms m (List.mem_cons_self _ _))]
        rfl
      · rw [if_neg h, if_neg (by
          intro hmem
          rcases List.mem_cons.mp hmem with rfl | hmem'
          · exact h2 rfl
          · exact h hmem'),
          List.getD_eq_getElem?_getD, List.getElem?_set_ne (fun hh => h2 hh.symm),
          ← List.getD_eq_getElem?_getD]

/-- The scan over a column with non-negative entries returns the maximum
value together with the ordered list of all indices achieving it. -/
lemma stochScan_spec (col : Nat → ℚ) (n : Nat) (hn : 0 < n)
    (hpos : ∀ m, m < n → 0 ≤ col m) :
    (stochScan col n).2
        = (List.range n).filter (fun i => col i = (stochScan col n).1) ∧
    (∀ i, i < n → col i ≤ (stochScan col n).1) ∧
    (∃ i, i < n ∧ col i = (stochScan col n).1) := by
  induction n, hn using Nat.le_induction with
  | base =>
    have h1 : stochScan col 1 = (col 0, [0]) := by
      unfold stochScan
      rw [show List.range 1 = [0] from rfl, List.foldl_cons, List.foldl_nil]
      unfold stochStep
      rw [if_pos (lt_of_lt_of_le (by norm_num) (hpos 0 Nat.one_pos))]
    rw [h1]
    refine ⟨?_, ?_, ⟨0, Nat.one_pos, rfl⟩⟩
    · rw [show List.range 1 = [0] from rfl]
      simp
    · intro i hi
      interval_cases i
      exact le_refl _
  | succ n hn ih =>
    obtain ⟨hset, hmax, hex⟩ := ih (fun m hm => hpos m (by omega))
    have hstep : stochScan col (n + 1) = stochStep col (stochScan col n) n := by
      unfold stochScan
      rw [List.range_succ, List.foldl_append, List.foldl_cons, List.foldl_nil]
    rw [hstep]
    unfold stochStep
    by_cases h : col n > (stochScan col n).1
    · rw [if_pos h]
      refine ⟨?_, ?_, ⟨n, Nat.lt_succ_self n, rfl⟩⟩
      · rw [List.range_succ, List.filter_append]
        have h1 : (List.range n).filter (fun i => decide (col i = col n)) = [] := by
          rw [List.filter_eq_nil_iff]
          intro i hi
          simp only [decide_eq_true_eq]
          exact ne_of_lt (lt_of_le_of_lt (hmax i (List.mem_range.mp hi)) h)
        rw [h1]
        simp
      · intro i hi
        rcases Nat.lt_succ_iff_lt_or_eq.mp hi with hi' | rfl
        · exact le_of_lt (lt_of_le_of_lt (hmax i hi') h)
        · exact le_refl _
    · rw [if_neg h]
      by_cases h2 : col n = (stochScan col n).1
      · rw [if_pos h2]
        obtain ⟨i0, hi0, hcoli0⟩ := hex
        refine ⟨?_, ?_, ⟨i0, by omega, hcoli0⟩⟩
        · rw [List.range_succ, List.filter_append, ← hset]
          simp [h2]
        · intro i hi
          rcases Nat.lt_succ_iff_lt_or_eq.mp hi with hi' | rfl
          · exact hmax i hi'
          · exact le_of_eq h2
      · rw [if_neg h2]
        obtain ⟨i0, hi0, hcoli0⟩ := hex
        refine ⟨?_, ?_, ⟨i0, by omega, hcoli0⟩⟩
        · rw [List.range_succ, List.filter_append, ← hset]
          simp [h2]
        · intro i hi
          rcases Nat.lt_succ_iff_lt_or_eq.mp hi with hi' | rfl
          · exact hmax i hi'
          · exact le_of_not_lt h

lemma stochScan_mem (col : Nat → ℚ) (n : Nat) (hn : 0 < n)
    (hpos : ∀ m, m < n → 0 ≤ col m) (m : Nat) :
    m ∈ (stochScan col n).2 ↔ m < n ∧ ∀ i, i < n → col i ≤ col m := by
  obtain ⟨hset, hmax, hex⟩ := stochScan_spec col n hn hpos
  rw [hset, List.mem_filter, List.mem_range]
  constructor
  · rintro ⟨hmn, heq⟩
    rw [decide_eq_true_eq] at heq
    exact ⟨hmn, fun i hi => heq ▸ hmax i hi⟩
  · rintro ⟨hmn, hub⟩
    refine ⟨hmn, ?_⟩
    rw [decide_eq_true_eq]
    obtain ⟨i0, hi0, hattain⟩ := hex
    exact le_antisymm (hmax m hmn) (hattain ▸ hub i0 hi0)

lemma stoch_rule_getm (pm : List (List ℚ)) (n c : Nat) (hc : c < n)
    (hpos : ∀ m, m < n → 0 ≤ getm pm m c) (m : Nat) :
    getm (calc_stochastic_func pm n) c m
      = if m ∈ (stochScan (fun msg => getm pm msg c) n).2
        then 1 / (((stochScan (fun msg => getm pm msg c) n).2.length : ℚ))
        else 0 := by
  show ((calc_stochastic_func pm n).getD c []).getD m 0 = _
  rw [stoch_rule_row pm n c hc,
    foldl_set_const_getD _ _ _ (fun x hx => by
      rw [List.length_replicate]
      exact ((stochScan_mem (fun msg => getm pm msg c) n (by omega) hpos x).mp hx).1) m]
  by_cases h : m ∈ (stochScan (fun msg => getm pm msg c) n).2
  · rw [if_pos h, if_pos h]
  · rw [if_neg h, if_neg h, getD_replicate_zero]

lemma stochScan_length_eq_card (col : Nat → ℚ) (n : Nat) (hn : 0 < n)
    (hpos : ∀ m, m < n → 0 ≤ col m) :
    (stochScan col n).2.length
      = ((Finset.range n).filter (fun m => ∀ i, i < n → col i ≤ col m)).card := by
  obtain ⟨hset, hmax, hex⟩ := stochScan_spec col n hn hpos
  have hnd : (stochScan col n).2.Nodup := by
    rw [hset]
    exact (List.nodup_range n).filter _
  rw [← List.toFinset_card_of_nodup hnd]
  congr 1
  apply Finset.ext
  intro m
  rw [List.mem_toFinset, stochScan_mem col n hn hpos, Finset.mem_filter,
    Finset.mem_range]

/-- The set of indices achieving the column maximum of the posterior:
`m ∈ argmaxSet pm n c` iff `m < n` and `pm[m][c]` is maximal in column `c`. -/
def argmaxSet (pm : List (List ℚ)) (n c : Nat) : Finset Nat :=
  (Finset.range n).filter (fun m => ∀ i, i < n → getm pm i c ≤ getm pm m c)

/-- C2: for a posterior with non-negative entries and each ciphertext
`c < n`, row `c` of the stochastic rule is exactly `1/|S|` on the argmax
set `S` of column `c` and 0 on every other index below `n`, and the row
sums to exactly 1. -/
theorem stochastic_rule_uniform_on_argmax (pm : List (List ℚ)) (n : Nat)
    (hpos : ∀ m, m < n → ∀ c, c < n → 0 ≤ getm pm m c)
    (c : Nat) (hc : c < n) :
    (∀ m, m < n → getm (calc_stochastic_func pm n) c m
      = if m ∈ argmaxSet pm n c
        then 1 / (((argmaxSet pm n c).card : ℚ))
        else 0) ∧
    ∑ m in Finset.range n, getm (calc_stochastic_func pm n) c m = 1 := by
  unfold argmaxSet
  have hn : 0 < n := by omega
  have hposc : ∀ m, m < n → 0 ≤ getm pm m c := fun m hm => hpos m hm c hc
  have hmem : ∀ m, m ∈ (stochScan (fun msg => getm pm msg c) n).2
      ↔ m ∈ (Finset.range n).filter
          (fun m => ∀ i, i < n → getm pm i c ≤ getm pm m c) := by
    intro m
    rw [stochScan_mem (fun msg => getm pm msg c) n hn hposc, Finset.mem_filter,
      Finset.mem_range]
  have hlen := stochScan_length_eq_card (fun msg => getm pm msg c) n hn hposc
  have hentry : ∀ m, getm (calc_stochastic_func pm n) c m
      = if m ∈ (Finset.range n).filter
            (fun m => ∀ i, i < n → getm pm i c ≤ getm pm m c)
        then 1 / ((((Finset.range n).filter
            (fun m => ∀ i, i < n → getm pm i c ≤ getm pm m c)).card : ℚ))
        else 0 := by
    intro m
    rw [stoch_rule_getm pm n c hc hposc m, hlen]
    by_cases h : m ∈ (stochScan (fun msg => getm pm msg c) n).2
    · rw [if_pos h, if_pos ((hmem m).mp h)]
    · rw [if_neg h, if_neg (fun hh => h ((hmem m).mpr hh))]
  have hcardpos : 0 < ((Finset.range n).filter
      (fun m => ∀ i, i < n → getm pm i c ≤ getm pm m c)).card := by
    rw [← hlen]
    obtain ⟨hset, hmax, hex⟩ := stochScan_spec (fun msg => getm pm msg c) n hn hposc
    obtain ⟨i0, hi0, hattain⟩ := hex
    have : i0 ∈ (stochScan (fun msg => getm pm msg c) n).2 := by
      rw [stochScan_mem (fun msg => getm pm msg c) n hn hposc]
      exact ⟨hi0, fun i hi => hattain ▸ hmax i hi⟩
    exact List.length_pos.mpr (List.ne_nil_of_mem this)
  refine ⟨fun m _ => hentry m, ?_⟩
  calc ∑ m in Finset.range n, getm (calc_stochastic_func pm n) c m
      = ∑ m in Finset.range n,
          (if m ∈ (Finset.range n).filter
              (fun m => ∀ i, i < n → getm pm i c ≤ getm pm m c)
          then 1 / ((((Finset.range n).filter
              (fun m => ∀ i, i < n → getm pm i c ≤ getm pm m c)).card : ℚ))
          else 0) := Finset.sum_congr rfl fun m _ => hentry m
    _ = 1 := by
        rw [Finset.sum_ite_mem, Finset.inter_eq_right.mpr (Finset.filter_subset _ _),
          Finset.sum_const, nsmul_eq_mul]
        rw [mul_one_div, div_self]
        exact Nat.cast_ne_zero.mpr (Nat.pos_iff_ne_zero.mp hcardpos)

/-- Witness for `stochastic_rule_uniform_on_argmax` on the spec's worked
scenario. -/
theorem stochastic_rule_uniform_on_argmax_witness :
    (∀ m, m < 2 → getm (calc_stochastic_func [[1/2, 1/2], [1/2, 1/2]] 2) 0 m
      = if m ∈ argmaxSet [[1/2, 1/2], [1/2, 1/2]] 2 0
        then 1 / (((argmaxSet [[1/2, 1/2], [1/2, 1/2]] 2 0).card : ℚ))
        else 0) ∧
    ∑ m in Finset.range 2,
        getm (calc_stochastic_func [[1/2, 1/2], [1/2, 1/2]] 2) 0 m = 1 :=
  stochastic_rule_uniform_on_argmax [[1/2, 1/2], [1/2, 1/2]] 2
    (by intro m hm c hc; interval_cases m <;> interval_cases c <;> norm_num [getm])
    0 (by decide)

/-- C7: the deterministic choice always lies in the support of the
stochastic rule built from the same (entrywise non-negative) posterior. -/
theorem deterministic_choice_in_stochastic_support (pm : List (List ℚ)) (n : Nat)
    (hpos : ∀ m, m < n → ∀ c, c < n → 0 ≤ getm pm m c)
    (c : Nat) (hc : c < n) :
    0 < getm (calc_stochastic_func pm n) c
        ((calc_deterministic_func pm n).getD c 0) := by
  have hn : 0 < n := by omega
  have hposc : ∀ m, m < n → 0 ≤ getm pm m c := fun m hm => hpos m hm c hc
  rw [det_rule_getD pm n c hc]
  obtain ⟨hval, hlt, hmax, hfirst⟩ := detScan_spec (fun m => getm pm m c) n hn hposc
  have hmem : (detScan (fun m => getm pm m c) n).2
      ∈ (stochScan (fun msg => getm pm msg c) n).2 := by
    rw [stochScan_mem (fun msg => getm pm msg c) n hn hposc]
    exact ⟨hlt, fun i hi => hval ▸ hmax i hi⟩
  rw [stoch_rule_getm pm n c hc hposc, if_pos hmem]
  exact one_div_pos.mpr (Nat.cast_pos.mpr
    (List.length_pos.mpr (List.ne_nil_of_mem hmem)))

/-- Witness for `deterministic_choice_in_stochastic_support` on the spec's
worked scenario. -/
theorem deterministic_choice_in_stochastic_support_witness :
    0 < getm (calc_stochastic_func [[1/2, 1/2], [1/2, 1/2]] 2) 1
        ((calc_deterministic_func [[1/2, 1/2], [1/2, 1/2]] 2).getD 1 0) :=
  deterministic_choice_in_stochastic_support [[1/2, 1/2], [1/2, 1/2]] 2
    (by intro m hm c hc; interval_cases m <;> interval_cases c <;> norm_num [getm])
    1 (by decide)

/-! ### Loss computations -/

lemma foldl_add_list {α : Type} (h : α → ℚ) (l : List α) (init : ℚ) :
    l.foldl (fun a x => a + h x) init = init + (l.map h).sum := by
  induction l generalizing init with
  | nil => simp
  | cons a l ih =>
    rw [List.foldl_cons, List.map_cons, List.sum_cons, ih]
    ring

lemma det_loss_eq (J : List (List ℚ)) (delta : List Nat) (n : Nat) :
    calc_average_loss_deterministic_func J delta n
      = 1 - ∑ c in Finset.range n, getm J (delta.getD c 0) c := by
  unfold calc_average_loss_deterministic_func
  rw [foldl_add_list (fun c => getm J (delta.getD c 0) c) (List.range n) 0,
    zero_add, sum_map_range]

lemma stoch_loss_eq (J : List (List ℚ)) (delta : List (List ℚ)) (n : Nat) :
    calc_average_loss_stochastic_func J delta n
      = 1 - ∑ c in Finset.range n, ∑ m in Finset.range n,
          getm J m c * getm delta c m := by
  unfold calc_average_loss_stochastic_func
  rw [foldl_pair_flatten (fun total c m => total + getm J m c * getm delta c m) n n 0]
  rw [foldl_add_list (fun p : Nat × Nat => getm J p.2 p.1 * getm delta p.1 p.2)
    (pairs n n) 0, zero_add, sum_map_pairs]

/-- C8: for a joint matrix with non-negative entries of total mass 1, a
deterministic rule with indices below `n`, and a stochastic rule with
non-negative rows summing to 1, both average losses lie in `[0, 1]`. -/
theorem average_losses_in_unit_interval (J : List (List ℚ)) (delta : List Nat)
    (S : List (List ℚ)) (n : Nat)
    (hJpos : ∀ m, m < n → ∀ c, c < n → 0 ≤ getm J m c)
    (hJ1 : ∑ m in Finset.range n, ∑ c in Finset.range n, getm J m c = 1)
    (hdelta : ∀ c, c < n → delta.getD c 0 < n)
    (hSpos : ∀ c, c < n → ∀ m, m < n → 0 ≤ getm S c m)
    (hSrow : ∀ c, c < n → ∑ m in Finset.range n, getm S c m = 1) :
    (0 ≤ calc_average_loss_deterministic_func J delta n ∧
      calc_average_loss_deterministic_func J delta n ≤ 1) ∧
    (0 ≤ calc_average_loss_stochastic_func J S n ∧
      calc_average_loss_stochastic_func J S n ≤ 1) := by
  have hJ1' : ∑ c in Finset.range n, ∑ m in Finset.range n, getm J m c = 1 := by
    rw [Finset.sum_comm]
    exact hJ1
  constructor
  · rw [det_loss_eq]
    have hT0 : 0 ≤ ∑ c in Finset.range n, getm J (delta.getD c 0) c :=
      Finset.sum_nonneg fun c hcmem =>
        hJpos _ (hdelta c (Finset.mem_range.mp hcmem)) c (Finset.mem_range.mp hcmem)
    have hT1 : ∑ c in Finset.range n, getm J (delta.getD c 0) c ≤ 1 := by
      rw [← hJ1']
      refine Finset.sum_le_sum fun c hcmem => ?_
      have hcn := Finset.mem_range.mp hcmem
      exact Finset.single_le_sum (f := fun m => getm J m c)
        (fun m hmmem => hJpos m (Finset.mem_range.mp hmmem) c hcn)
        (Finset.mem_range.mpr (hdelta c hcn))
    constructor <;> linarith
  · rw [stoch_loss_eq]
    have hT0 : 0 ≤ ∑ c in Finset.range n, ∑ m in Finset.range n,
        getm J m c * getm S c m :=
      Finset.sum_nonneg fun c hcmem => Finset.sum_nonneg fun m hmmem =>
        mul_nonneg (hJpos m (Finset.mem_range.mp hmmem) c (Finset.mem_range.mp hcmem))
          (hSpos c (Finset.mem_range.mp hcmem) m (Finset.mem_range.mp hmmem))
    have hT1 : ∑ c in Finset.range n, ∑ m in Finset.range n,
        getm J m c * getm S c m ≤ 1 := by
      rw [← hJ1']
      refine Finset.sum_le_sum fun c hcmem => Finset.sum_le_sum fun m hmmem => ?_
      have hcn := Finset.mem_range.mp hcmem
      have hmn := Finset.mem_range.mp hmmem
      have hle1 : getm S c m ≤ 1 := by
        rw [← hSrow c hcn]
        exact Finset.single_le_sum (f := fun m => getm S c m)
          (fun i himem => hSpos c hcn i (Finset.mem_range.mp himem)) hmmem
      calc getm J m c * getm S c m ≤ getm J m c * 1 :=
            mul_le_mul_of_nonneg_left hle1 (hJpos m hmn c hcn)
        _ = getm J m c := mul_one _
    constructor <;> linarith

/-- Witness for `average_losses_in_unit_interval` on the spec's worked
scenario. -/
theorem average_losses_in_unit_interval_witness :
    (0 ≤ calc_average_loss_deterministic_func [[1/4, 1/4], [1/4, 1/4]] [0, 0] 2 ∧
      calc_average_loss_deterministic_func [[1/4, 1/4], [1/4, 1/4]] [0, 0] 2 ≤ 1) ∧
    (0 ≤ calc_average_loss_stochastic_func [[1/4, 1/4], [1/4, 1/4]]
        [[1/2, 1/2], [1/2, 1/2]] 2 ∧
      calc_average_loss_stochastic_func [[1/4, 1/4], [1/4, 1/4]]
        [[1/2, 1/2], [1/2, 1/2]] 2 ≤ 1) :=
  average_losses_in_unit_interval [[1/4, 1/4], [1/4, 1/4]] [0, 0]
    [[1/2, 1/2], [1/2, 1/2]] 2
    (by intro m hm c hc; interval_cases m <;> interval_cases c <;> norm_num [getm])
    (by norm_num [Finset.sum_range_succ, getm])
    (by intro c hc; interval_cases c <;> decide)
    (by intro c hc m hm; interval_cases c <;> interval_cases m <;> norm_num [getm])
    (by intro c hc; interval_cases c <;> norm_num [Finset.sum_range_succ, getm])

/-- C9 (implicit): when the posterior is the joint divided columnwise by a
positive ciphertext distribution, the deterministic and stochastic Bayes
rules derived from it have exactly the same average loss against that
joint, because every index in a posterior argmax set carries the same
joint mass. -/
theorem losses_coincide_on_pipeline (J post : List (List ℚ)) (p : List ℚ) (n : Nat)
    (hJpos : ∀ m, m < n → ∀ c, c < n → 0 ≤ getm J m c)
    (hp : ∀ c, c < n → 0 < getv p c)
    (hpost : ∀ m, m < n → ∀ c, c < n → getm post m c = getm J m c / getv p c) :
    calc_average_loss_deterministic_func J (calc_deterministic_func post n) n
      = calc_average_loss_stochastic_func J (calc_stochastic_func post n) n := by
  rw [det_loss_eq, stoch_loss_eq, sub_right_inj]
  refine Finset.sum_congr rfl fun c hcmem => ?_
  have hc := Finset.mem_range.mp hcmem
  have hn : 0 < n := by omega
  have hposc : ∀ m, m < n → 0 ≤ getm post m c := fun m hm => by
    rw [hpost m hm c hc]
    exact div_nonneg (hJpos m hm c hc) (le_of_lt (hp c hc))
  rw [det_rule_getD post n c hc]
  obtain ⟨hval, hlt, hmax, hfirst⟩ :=
    detScan_spec (fun m => getm post m c) n hn hposc
  set d := (detScan (fun m => getm post m c) n).2 with hd
  set L := (stochScan (fun msg => getm post msg c) n).2 with hL
  have hJeq : ∀ m, m ∈ L → getm J m c = getm J d c := by
    intro m hmem
    obtain ⟨hmn, hub⟩ :=
      (stochScan_mem (fun msg => getm post msg c) n hn hposc m).mp hmem
    have hcoleq : getm post m c = getm post d c :=
      le_antisymm (hval ▸ hmax m hmn) (hub d hlt)
    rw [hpost m hmn c hc, hpost d hlt c hc,
      div_eq_div_iff (ne_of_gt (hp c hc)) (ne_of_gt (hp c hc))] at hcoleq
    exact mul_right_cancel₀ (ne_of_gt (hp c hc)) hcoleq
  have hdmem : d ∈ L := by
    rw [hL, stochScan_mem (fun msg => getm post msg c) n hn hposc]
    exact ⟨hlt, fun i hi => hval ▸ hmax i hi⟩
  have hndL : L.Nodup := by
    obtain ⟨hset, _, _⟩ := stochScan_spec (fun msg => getm post msg c) n hn hposc
    rw [hL, hset]
    exact (List.nodup_range n).filter _
  have hlenpos : 0 < L.length := List.length_pos.mpr (List.ne_nil_of_mem hdmem)
  have hchain : ∑ m in Finset.range n,
      getm J m c * getm (calc_stochastic_func post n) c m = getm J d c := by
    calc ∑ m in Finset.range n, getm J m c * getm (calc_stochastic_func post n) c m
        = ∑ m in Finset.range n,
            (if m ∈ L.toFinset then getm J d c * (1 / (L.length : ℚ)) else 0) := by
          refine Finset.sum_congr rfl fun m hmmem => ?_
          rw [stoch_rule_getm post n c hc hposc m]
          by_cases h : m ∈ L
          · rw [if_pos h, if_pos (List.mem_toFinset.mpr h), hJeq m h]
          · rw [if_neg h, if_neg (fun hh => h (List.mem_toFinset.mp hh)), mul_zero]
      _ = ∑ m in L.toFinset, getm J d c * (1 / (L.length : ℚ)) := by
          rw [Finset.sum_ite_mem,
            Finset.inter_eq_right.mpr (fun x hx => Finset.mem_range.mpr
              ((stochScan_mem (fun msg => getm post msg c) n hn hposc x).mp
                (List.mem_toFinset.mp hx)).1)]
      _ = ((L.toFinset.card : ℚ)) * (getm J d c * (1 / (L.length : ℚ))) := by
          rw [Finset.sum_const, nsmul_eq_mul]
      _ = getm J d c := by
          rw [List.toFinset_card_of_nodup hndL]
          field_simp
  exact hchain.symm

/-- Witness for `losses_coincide_on_pipeline` on the spec's worked
scenario (exact tie, so the stochastic rule genuinely randomizes). -/
theorem losses_coincide_on_pipeline_witness :
    calc_average_loss_deterministic_func [[1/4, 1/4], [1/4, 1/4]]
        (calc_deterministic_func [[1/2, 1/2], [1/2, 1/2]] 2) 2
      = calc_average_loss_stochastic_func [[1/4, 1/4], [1/4, 1/4]]
        (calc_stochastic_func [[1/2, 1/2], [1/2, 1/2]] 2) 2 :=
  losses_coincide_on_pipeline [[1/4, 1/4], [1/4, 1/4]] [[1/2, 1/2], [1/2, 1/2]]
    [1/2, 1/2] 2
    (by intro m hm c hc; interval_cases m <;> interval_cases c <;> norm_num [getm])
    (by intro c hc; interval_cases c <;> norm_num [getv])
    (by intro m hm c hc; interval_cases m <;> interval_cases c <;>
      norm_num [getm, getv])

end Crypto
